import Mathlib

/-!
Shallow embedding of `src/bot.py` (TelegramBotMiFi): participant extraction
from Telegram chat-export files, deduplication keys, mention scanning,
merging, presentation threshold and message chunking.

Python strings are modelled as Lean `String`; `str.lower()` and the `\w`
character class are modelled over the ASCII range (all data relevant to the
claims is ASCII).  Python `dict`s are modelled as association lists with
dict semantics (insert replaces in place, otherwise appends); Python `set`s
are modelled as `Finset String`.
-/

namespace Bot

def MAX_FILES : Nat := 10

def LIST_THRESHOLD : Nat := 50

def TELEGRAM_MSG_LIMIT : Nat := 4096

/-- Python `str.lower()` on one character, modelled exactly over the ASCII
and Cyrillic repertoire (code points below U+0080 and U+0400-U+04FF, the
program's English/Russian domain): A-Z shift by 32, Cyrillic U+0400-U+040F
shift by 0x50, U+0410-U+042F by 0x20, and the historic/extended uppercase
letters of U+0460-U+04FF map to their case pairs. -/
def pyToLower (c : Char) : Char :=
  let n := c.toNat
  if 65 ≤ n ∧ n ≤ 90 then Char.ofNat (n + 32)
  else if 0x400 ≤ n ∧ n ≤ 0x40F then Char.ofNat (n + 0x50)
  else if 0x410 ≤ n ∧ n ≤ 0x42F then Char.ofNat (n + 0x20)
  else if 0x460 ≤ n ∧ n ≤ 0x480 ∧ n % 2 = 0 then Char.ofNat (n + 1)
  else if 0x48A ≤ n ∧ n ≤ 0x4BE ∧ n % 2 = 0 then Char.ofNat (n + 1)
  else if n = 0x4C0 then Char.ofNat 0x4CF
  else if 0x4C1 ≤ n ∧ n ≤ 0x4CD ∧ n % 2 = 1 then Char.ofNat (n + 1)
  else if 0x4D0 ≤ n ∧ n ≤ 0x4FE ∧ n % 2 = 0 then Char.ofNat (n + 1)
  else c

/-- Python `str.lower()` (ASCII and Cyrillic model). -/
def pyLower (s : String) : String := String.mk (s.data.map pyToLower)

/-- Python `needle in hay` substring containment. -/
def strContains (hay needle : String) : Bool := decide (needle.data <:+: hay.data)

/-- Python `str.strip()` (whitespace at both ends removed; ASCII model). -/
def pyStrip (s : String) : String :=
  String.mk (((s.data.dropWhile Char.isWhitespace).reverse.dropWhile
    Char.isWhitespace).reverse)

/-- Python `str.split()` with no argument: maximal runs of non-whitespace
characters (empty pieces never produced). -/
def wordsAux : List Char → List Char → List String
  | acc, [] => if acc = [] then [] else [String.mk acc.reverse]
  | acc, c :: rest =>
    if c.isWhitespace then
      if acc = [] then wordsAux [] rest
      else String.mk acc.reverse :: wordsAux [] rest
    else wordsAux (c :: acc) rest

def pyWords (s : String) : List String := wordsAux [] s.data

/-- Python `sep.join(xs)`. -/
def pyJoin (sep : String) (xs : List String) : String :=
  match xs with
  | [] => ""
  | x :: rest => rest.foldl (fun acc y => acc ++ sep ++ y) x

/-- `_is_deleted_account(name, user_id)` from bot.py lines 53-61.
The `user_id` argument is accepted but never inspected. -/
def is_deleted_account (name : String) (user_id : String) : Bool :=
  let n := pyLower (pyStrip name)
  if strContains n "deleted account" then true
  else if strContains n "удал" && strContains n "аккаунт" then true
  else if n = "deleted" then true
  else false

/-- `_make_user_key(user_id, username, first_name, last_name)` from
bot.py lines 64-69 (Python string truthiness = non-emptiness). -/
def make_user_key (user_id username first_name last_name : String) : String :=
  if user_id ≠ "" then "id:" ++ user_id
  else if username ≠ "" then "u:" ++ pyLower username
  else "n:" ++ pyLower first_name ++ "|" ++ pyLower last_name

lemma pyLower_eq_empty_iff (s : String) : pyLower s = "" ↔ s = "" := by
  unfold pyLower
  constructor
  · intro h
    have : s.data.map pyToLower = "".data := congrArg String.data h
    simp at this
    cases s with
    | mk d => simp_all
  · intro h; subst h; rfl

/-- C1: the key builder is deterministic and total with the three-tier
priority (id, then lowercased username, then lowercased first|last names);
inputs differing only in the case of the username share a key, and inputs
with the same non-empty id share a key regardless of all other fields. -/
theorem make_user_key_spec (id u f l : String) :
    (id ≠ "" → make_user_key id u f l = "id:" ++ id) ∧
    (id = "" → u ≠ "" → make_user_key id u f l = "u:" ++ pyLower u) ∧
    (id = "" → u = "" →
      make_user_key id u f l = "n:" ++ pyLower f ++ "|" ++ pyLower l) ∧
    (∀ u2, pyLower u = pyLower u2 → make_user_key id u f l = make_user_key id u2 f l) ∧
    (∀ u2 f2 l2, id ≠ "" → make_user_key id u f l = make_user_key id u2 f2 l2) := by
  refine ⟨?_, ?_, ?_, ?_, ?_⟩
  · intro h; simp [make_user_key, h]
  · intro h hu; simp [make_user_key, h, hu]
  · intro h hu; simp [make_user_key, h, hu]
  · intro u2 hlow
    by_cases hid : id = ""
    · by_cases hu : u = ""
      · have hu2 : u2 = "" := by
          have : pyLower u2 = "" := by rw [← hlow, hu]; rfl
          exact (pyLower_eq_empty_iff u2).mp this
        simp [make_user_key, hid, hu, hu2]
      · have hu2 : u2 ≠ "" := by
          intro h2
          apply hu
          have : pyLower u = "" := by rw [hlow, h2]; rfl
          exact (pyLower_eq_empty_iff u).mp this
        simp [make_user_key, hid, hu, hu2, hlow]
    · simp [make_user_key, hid]
  · intro u2 f2 l2 h; simp [make_user_key, h]

/-- Witness for C1 at concrete inputs. -/
theorem make_user_key_spec_witness :
    make_user_key "" "Bob" "A" "B" = "u:" ++ pyLower "Bob" ∧
    make_user_key "id7" "u1" "f1" "l1" = make_user_key "id7" "u2" "f2" "l2" :=
  ⟨(make_user_key_spec "" "Bob" "A" "B").2.1 rfl (by decide),
   (make_user_key_spec "id7" "u1" "f1" "l1").2.2.2.2 "u2" "f2" "l2" (by decide)⟩

/-- C9: the deleted-account predicate never inspects its identifier
argument: its value is a function of the name alone. -/
theorem is_deleted_account_ignores_id (name id1 id2 : String) :
    is_deleted_account name id1 = is_deleted_account name id2 := rfl

/-! ### `str.splitlines(True)` and `chunk_text` (bot.py lines 183-193) -/

/-- The line-boundary characters recognised by Python `str.splitlines`. -/
def isLineBreak (c : Char) : Bool :=
  c = '\n' || c = '\r' || c = '\x0b' || c = '\x0c' ||
  c = '\x1c' || c = '\x1d' || c = '\x1e' || c = '\u0085' ||
  c = ' ' || c = ' '

/-- Python `str.splitlines(keepends=True)` over char lists: each emitted piece
carries its terminator, `\r\n` counts as a single boundary, and a last
unterminated piece is emitted only if non-empty. -/
def splitlinesAux : List Char → List Char → List (List Char)
  | acc, [] => if acc = [] then [] else [acc.reverse]
  | acc, '\r' :: '\n' :: rest => (acc.reverse ++ ['\r', '\n']) :: splitlinesAux [] rest
  | acc, c :: rest =>
    if isLineBreak c then (acc.reverse ++ [c]) :: splitlinesAux [] rest
    else splitlinesAux (c :: acc) rest

/-- `text.splitlines(True)` as used by `chunk_text`. -/
def splitlines (s : String) : List String := (splitlinesAux [] s.data).map String.mk

set_option maxHeartbeats 1000000 in
lemma splitlinesAux_nil (acc : List Char) :
    splitlinesAux acc [] = if acc = [] then [] else [acc.reverse] := rfl

set_option maxHeartbeats 1000000 in
lemma splitlinesAux_crlf (acc rest : List Char) :
    splitlinesAux acc ('\r' :: '\n' :: rest) =
      (acc.reverse ++ ['\r', '\n']) :: splitlinesAux [] rest := by
  rw [splitlinesAux]

set_option maxHeartbeats 1000000 in
lemma splitlinesAux_break (acc : List Char) (c : Char) (rest : List Char)
    (hc : c = '\r' → rest.head? ≠ some '\n') (h : isLineBreak c = true) :
    splitlinesAux acc (c :: rest) = (acc.reverse ++ [c]) :: splitlinesAux [] rest := by
  rw [splitlinesAux.eq_def]
  split
  · rename_i heq; exact absurd heq (by simp)
  · rename_i rest2 heq
    injection heq with e1 e2
    subst e1
    exact absurd (show rest.head? = some '\n' by rw [e2]; rfl) (hc rfl)
  · rename_i c2 rest2 hno heq
    injection heq with e1 e2
    subst e1; subst e2
    simp [h]

set_option maxHeartbeats 1000000 in
lemma splitlinesAux_nobreak (acc : List Char) (c : Char) (rest : List Char)
    (h : isLineBreak c = false) :
    splitlinesAux acc (c :: rest) = splitlinesAux (c :: acc) rest := by
  have hcr : c ≠ '\r' := by
    intro hh; subst hh; exact absurd h (by decide)
  rw [splitlinesAux.eq_def]
  split
  · rename_i heq; exact absurd heq (by simp)
  · rename_i rest2 heq
    injection heq with e1 e2
    exact absurd e1 hcr
  · rename_i c2 rest2 hno heq
    injection heq with e1 e2
    subst e1; subst e2
    simp [h]

lemma splitlinesAux_flatten : ∀ (acc cs : List Char),
    (splitlinesAux acc cs).flatten = acc.reverse ++ cs := by
  intro acc cs
  induction acc, cs using splitlinesAux.induct with
  | case1 => simp [splitlinesAux_nil]
  | case2 acc h => simp [splitlinesAux_nil, h]
  | case3 acc rest ih => simp [splitlinesAux_crlf, ih]
  | case4 acc c rest hne h ih =>
    have hc : c = '\r' → rest.head? ≠ some '\n' := by
      intro h1 h2
      rcases rest with _ | ⟨r, rs⟩
      · exact absurd h2 (by simp)
      · exact hne rs h1 (by simpa using h2)
    simp [splitlinesAux_break acc c rest hc h, ih]
  | case5 acc c rest hne h ih =>
    rw [splitlinesAux_nobreak acc c rest (by simpa using h), ih]
    simp

lemma splitlinesAux_ne_nil : ∀ (acc cs : List Char), ∀ p ∈ splitlinesAux acc cs, p ≠ [] := by
  intro acc cs
  induction acc, cs using splitlinesAux.induct with
  | case1 => simp [splitlinesAux_nil]
  | case2 acc h => simp [splitlinesAux_nil, h]
  | case3 acc rest ih =>
    rw [splitlinesAux_crlf]
    intro p hp
    rcases List.mem_cons.mp hp with h1 | h2
    · subst h1; simp
    · exact ih p h2
  | case4 acc c rest hne h ih =>
    have hc : c = '\r' → rest.head? ≠ some '\n' := by
      intro h1 h2
      rcases rest with _ | ⟨r, rs⟩
      · exact absurd h2 (by simp)
      · exact hne rs h1 (by simpa using h2)
    rw [splitlinesAux_break acc c rest hc h]
    intro p hp
    rcases List.mem_cons.mp hp with h1 | h2
    · subst h1; simp
    · exact ih p h2
  | case5 acc c rest hne h ih =>
    rw [splitlinesAux_nobreak acc c rest (by simpa using h)]
    exact ih

/-- Concatenation of a list of strings (used to state chunk round-trips). -/
def joinStr (l : List String) : String := l.foldr (· ++ ·) ""

lemma joinStr_nil : joinStr [] = "" := rfl

lemma joinStr_cons (a : String) (l : List String) : joinStr (a :: l) = a ++ joinStr l := rfl

lemma joinStr_append (l1 l2 : List String) :
    joinStr (l1 ++ l2) = joinStr l1 ++ joinStr l2 := by
  induction l1 with
  | nil => simp [joinStr_nil, String.empty_append]
  | cons a t ih => simp [joinStr_cons, ih, String.append_assoc]

lemma append_eq_empty_left {a b : String} (h : a ++ b = "") : a = "" := by
  have hl : (a ++ b).length = 0 := by rw [h]; rfl
  rw [String.length_append] at hl
  have : a.length = 0 := by omega
  cases a with
  | mk d =>
    cases d with
    | nil => rfl
    | cons c t => exact absurd this (by simp [String.length])

lemma joinStr_eq_empty {l : List String} (hne : ∀ p ∈ l, p ≠ "")
    (h : joinStr l = "") : l = [] := by
  cases l with
  | nil => rfl
  | cons a t =>
    rw [joinStr_cons] at h
    exact absurd (append_eq_empty_left h) (hne a (by simp))

lemma joinStr_map_mk (ps : List (List Char)) :
    joinStr (ps.map String.mk) = String.mk ps.flatten := by
  induction ps with
  | nil => simp [joinStr_nil]
  | cons p t ih => simp [joinStr_cons, ih]; rfl

lemma splitlines_join (s : String) : joinStr (splitlines s) = s := by
  unfold splitlines
  rw [joinStr_map_mk, splitlinesAux_flatten]
  simp

lemma mk_ne_empty {l : List Char} (h : l ≠ []) : String.mk l ≠ "" := by
  intro hh
  apply h
  have : (String.mk l).data = ("" : String).data := by rw [hh]
  simpa using this

lemma splitlines_ne_empty (s : String) : ∀ p ∈ splitlines s, p ≠ "" := by
  intro p hp
  unfold splitlines at hp
  rcases List.mem_map.mp hp with ⟨q, hq, rfl⟩
  exact mk_ne_empty (splitlinesAux_ne_nil [] s.data q hq)

lemma splitlinesAux_nobreak_all : ∀ (cs acc : List Char),
    (∀ c ∈ cs, isLineBreak c = false) →
    splitlinesAux acc cs = if acc = [] ∧ cs = [] then [] else [acc.reverse ++ cs] := by
  intro cs
  induction cs with
  | nil =>
    intro acc _
    rw [splitlinesAux_nil]
    by_cases h : acc = [] <;> simp [h]
  | cons c rest ih =>
    intro acc hall
    rw [splitlinesAux_nobreak acc c rest (hall c (by simp))]
    rw [ih (c :: acc) (fun d hd => hall d (by simp [hd]))]
    simp

/-- The accumulator loop of `chunk_text` (bot.py lines 184-192): before adding
a line, flush the current buffer if it would exceed `limit - 50`; emit the
final buffer only if non-empty. -/
def chunkAux (limit : Nat) : String → List String → List String
  | cur, [] => if cur = "" then [] else [cur]
  | cur, line :: rest =>
    if limit - 50 < cur.length + line.length then cur :: chunkAux limit line rest
    else chunkAux limit (cur ++ line) rest

/-- `chunk_text(text, limit=TELEGRAM_MSG_LIMIT)` from bot.py lines 183-193. -/
def chunk_text (text : String) (limit : Nat := TELEGRAM_MSG_LIMIT) : List String :=
  chunkAux limit "" (splitlines text)

lemma chunkAux_big (limit : Nat) : ∀ (lines : List String) (cur : String),
    ∀ c ∈ chunkAux limit cur lines, c.length ≤ limit - 50 ∨ c = cur ∨ c ∈ lines := by
  intro lines
  induction lines with
  | nil =>
    intro cur c hc
    unfold chunkAux at hc
    by_cases h : cur = "" <;> simp [h] at hc
    · right; left; exact hc
  | cons line rest ih =>
    intro cur c hc
    unfold chunkAux at hc
    by_cases h : limit - 50 < cur.length + line.length <;> simp [h] at hc
    · rcases hc with h1 | h2
      · right; left; exact h1
      · rcases ih line c h2 with ha | hb | hcm
        · left; exact ha
        · right; right; simp [hb]
        · right; right; simp [hcm]
    · rcases ih (cur ++ line) c hc with ha | hb | hcm
      · left; exact ha
      · left
        rw [hb, String.length_append]
        omega
      · right; right; simp [hcm]

lemma append_ne_empty_right (a : String) {b : String} (h : b ≠ "") : a ++ b ≠ "" := by
  intro hh
  apply h
  have hl : (a ++ b).length = 0 := by rw [hh]; rfl
  rw [String.length_append] at hl
  cases b with
  | mk d =>
    cases d with
    | nil => rfl
    | cons c t =>
      have hc : (String.mk (c :: t)).length = t.length + 1 := by
        simp [String.length]
      omega

lemma chunkAux_all_ne (limit : Nat) : ∀ (lines : List String),
    (∀ l ∈ lines, l ≠ "") → ∀ (cur : String), cur ≠ "" →
    ∀ c ∈ chunkAux limit cur lines, c ≠ "" := by
  intro lines
  induction lines with
  | nil =>
    intro _ cur hcur c hc
    unfold chunkAux at hc
    simp [hcur] at hc
    subst hc
    exact hcur
  | cons line rest ih =>
    intro hl cur hcur c hc
    have hline : line ≠ "" := hl line (by simp)
    have hrest : ∀ l ∈ rest, l ≠ "" := fun l h => hl l (by simp [h])
    unfold chunkAux at hc
    by_cases h : limit - 50 < cur.length + line.length <;> simp [h] at hc
    · rcases hc with h1 | h2
      · simp [h1, hcur]
      · exact ih hrest line hline c h2
    · exact ih hrest (cur ++ line) (append_ne_empty_right cur hline) c hc

lemma chunkAux_tail_ne (limit : Nat) : ∀ (lines : List String),
    (∀ l ∈ lines, l ≠ "") → ∀ (cur : String),
    ∀ c ∈ (chunkAux limit cur lines).tail, c ≠ "" := by
  intro lines
  induction lines with
  | nil =>
    intro _ cur c hc
    unfold chunkAux at hc
    by_cases h : cur = "" <;> simp [h] at hc
  | cons line rest ih =>
    intro hl cur c hc
    have hline : line ≠ "" := hl line (by simp)
    have hrest : ∀ l ∈ rest, l ≠ "" := fun l h => hl l (by simp [h])
    unfold chunkAux at hc
    by_cases h : limit - 50 < cur.length + line.length <;> simp [h] at hc
    · exact chunkAux_all_ne limit rest hrest line hline c hc
    · exact ih hrest (cur ++ line) c hc

lemma chunkAux_ne_nil (limit : Nat) : ∀ (lines : List String),
    (∀ l ∈ lines, l ≠ "") → ∀ (cur : String), cur ≠ "" →
    chunkAux limit cur lines ≠ [] := by
  intro lines
  induction lines with
  | nil => intro _ cur hcur; unfold chunkAux; simp [hcur]
  | cons line rest ih =>
    intro hl cur hcur
    have hline : line ≠ "" := hl line (by simp)
    have hrest : ∀ l ∈ rest, l ≠ "" := fun l h => hl l (by simp [h])
    unfold chunkAux
    by_cases h : limit - 50 < cur.length + line.length <;> simp [h]
    exact ih hrest (cur ++ line) (append_ne_empty_right cur hline)

lemma chunkAux_getLast (limit : Nat) : ∀ (lines : List String),
    (∀ l ∈ lines, l ≠ "") → ∀ (cur : String), ∀ c,
    (chunkAux limit cur lines).getLast? = some c → c ≠ "" := by
  intro lines
  induction lines with
  | nil =>
    intro _ cur c hc
    unfold chunkAux at hc
    by_cases h : cur = "" <;> simp [h] at hc
    simp [← hc, h]
  | cons line rest ih =>
    intro hl cur c hc
    have hline : line ≠ "" := hl line (by simp)
    have hrest : ∀ l ∈ rest, l ≠ "" := fun l h => hl l (by simp [h])
    unfold chunkAux at hc
    by_cases h : limit - 50 < cur.length + line.length <;> simp [h] at hc
    · rcases hx : chunkAux limit line rest with _ | ⟨x, xs⟩
      · exact absurd hx (chunkAux_ne_nil limit rest hrest line hline)
      · rw [hx, List.getLast?_cons_cons] at hc
        exact ih hrest line c (by rw [hx]; exact hc)
    · exact ih hrest (cur ++ line) c hc

lemma chunkAux_join (limit : Nat) : ∀ (lines : List String) (cur : String),
    joinStr (chunkAux limit cur lines) = cur ++ joinStr lines := by
  intro lines
  induction lines with
  | nil =>
    intro cur
    unfold chunkAux
    by_cases h : cur = "" <;>
      simp [h, joinStr_nil, joinStr_cons, String.append_empty]
  | cons line rest ih =>
    intro cur
    unfold chunkAux
    by_cases h : limit - 50 < cur.length + line.length <;> simp [h]
    · rw [joinStr_cons, ih line, joinStr_cons]
    · rw [ih (cur ++ line), joinStr_cons, String.append_assoc]

lemma chunkAux_partition (limit : Nat) : ∀ (lines : List String),
    (∀ l ∈ lines, l ≠ "") → ∀ (pre : List String) (cur : String),
    (∀ l ∈ pre, l ≠ "") → cur = joinStr pre →
    ∃ gs : List (List String), gs.flatten = pre ++ lines ∧
      chunkAux limit cur lines = gs.map joinStr := by
  intro lines
  induction lines with
  | nil =>
    intro _ pre cur hpre hcur
    unfold chunkAux
    by_cases h : cur = ""
    · have : pre = [] := joinStr_eq_empty hpre (by rw [← hcur]; exact h)
      exact ⟨[], by simp [this], by simp [h]⟩
    · refine ⟨[pre], by simp, ?_⟩
      rw [if_neg h]
      simp [hcur]
  | cons line rest ih =>
    intro hl pre cur hpre hcur
    have hline : line ≠ "" := hl line (by simp)
    have hrest : ∀ l ∈ rest, l ≠ "" := fun l h => hl l (by simp [h])
    unfold chunkAux
    by_cases h : limit - 50 < cur.length + line.length <;> simp [h]
    · obtain ⟨gs, hflat, heq⟩ := ih hrest [line] line (by simp [hline])
        (by simp [joinStr_cons, joinStr_nil, String.append_empty])
      refine ⟨pre :: gs, ?_, ?_⟩
      · simp [hflat]
      · simp [heq, hcur]
    · obtain ⟨gs, hflat, heq⟩ := ih hrest (pre ++ [line]) (cur ++ line)
        (by intro l hm; rcases List.mem_append.mp hm with hm | hm
            · exact hpre l hm
            · simp at hm; simp [hm, hline])
        (by rw [joinStr_append, ← hcur, joinStr_cons, joinStr_nil, String.append_empty])
      exact ⟨gs, by simp [hflat], heq⟩

/-- C7: chunking splits only at line boundaries (each chunk is the
concatenation of a consecutive group of the keepends-lines of the input, so
no line — even one longer than the limit — is ever split across chunks) and
concatenating all chunks in order reconstructs the input exactly. -/
theorem chunk_text_roundtrip (text : String) (limit : Nat) :
    (∃ gs : List (List String), gs.flatten = splitlines text ∧
      chunk_text text limit = gs.map joinStr) ∧
    joinStr (chunk_text text limit) = text := by
  constructor
  · obtain ⟨gs, h1, h2⟩ := chunkAux_partition limit (splitlines text)
      (splitlines_ne_empty text) [] "" (by simp) rfl
    exact ⟨gs, by simpa using h1, h2⟩
  · unfold chunk_text
    rw [chunkAux_join, String.empty_append, splitlines_join]

/-- C6 counterexample: on an input consisting of one 4047-character line,
`chunk_text` emits that whole line as a chunk, exceeding the claimed
4046-character bound (TELEGRAM_MSG_LIMIT - 50). -/
theorem chunk_text_overlong_counterexample :
    String.mk (List.replicate 4047 'a') ∈
      chunk_text (String.mk (List.replicate 4047 'a')) ∧
    TELEGRAM_MSG_LIMIT - 50 < (String.mk (List.replicate 4047 'a')).length := by
  have hlen : (String.mk (List.replicate 4047 'a')).length = 4047 := by
    rw [show (String.mk (List.replicate 4047 'a')).length =
      (List.replicate 4047 'a').length from rfl, List.length_replicate]
  have hne : List.replicate 4047 'a' ≠ [] := by
    intro h
    have h2 := congrArg List.length h
    rw [List.length_replicate] at h2
    simp at h2
  have hsplit : splitlines (String.mk (List.replicate 4047 'a')) =
      [String.mk (List.replicate 4047 'a')] := by
    unfold splitlines
    rw [show (String.mk (List.replicate 4047 'a')).data = List.replicate 4047 'a' from rfl]
    rw [splitlinesAux_nobreak_all (List.replicate 4047 'a') []
      (fun c hc => by rw [List.eq_of_mem_replicate hc]; rfl)]
    rw [if_neg (fun hand => hne hand.2)]
    rfl
  have hchunk : chunk_text (String.mk (List.replicate 4047 'a')) =
      ["", String.mk (List.replicate 4047 'a')] := by
    unfold chunk_text
    rw [hsplit]
    unfold chunkAux
    rw [if_pos (by
      rw [show ("" : String).length = 0 from rfl, hlen]
      show TELEGRAM_MSG_LIMIT - 50 < 0 + 4047
      norm_num [TELEGRAM_MSG_LIMIT])]
    unfold chunkAux
    rw [if_neg (mk_ne_empty hne)]
  constructor
  · rw [hchunk]; simp
  · rw [hlen]; norm_num [TELEGRAM_MSG_LIMIT]

/-- C6 (amended): every chunk either has length at most
TELEGRAM_MSG_LIMIT - 50 = 4046 or is a single whole input line (a lone line
longer than the limit is emitted unsplit, exceeding the bound), and the
final emitted chunk is never empty. -/
theorem chunk_text_size_amended (text : String) :
    (∀ c ∈ chunk_text text, c.length ≤ TELEGRAM_MSG_LIMIT - 50 ∨ c ∈ splitlines text) ∧
    (∀ c, (chunk_text text).getLast? = some c → c ≠ "") := by
  constructor
  · intro c hc
    unfold chunk_text at hc
    rcases chunkAux_big TELEGRAM_MSG_LIMIT (splitlines text) "" c hc with h | h | h
    · left; exact h
    · left; rw [h]; simp [String.length]
    · right; exact h
  · intro c hc
    exact chunkAux_getLast TELEGRAM_MSG_LIMIT (splitlines text)
      (splitlines_ne_empty text) "" c hc

/-- Witness for the amended C6 at a concrete input. -/
theorem chunk_text_size_amended_witness :
    (("hello" : String).length ≤ TELEGRAM_MSG_LIMIT - 50 ∨
      ("hello" : String) ∈ splitlines "hello") ∧ ("hello" : String) ≠ "" :=
  ⟨(chunk_text_size_amended "hello").1 "hello" (by decide),
   (chunk_text_size_amended "hello").2 "hello" (by decide)⟩

/-- C10: every chunk after the first is non-empty, and the first chunk is
the empty string whenever the input's first keepends-line alone is longer
than `limit - 50`. -/
theorem chunk_text_empty_only_first (text : String) (limit : Nat) :
    (∀ c ∈ (chunk_text text limit).tail, c ≠ "") ∧
    (∀ fl rest, splitlines text = fl :: rest → limit - 50 < fl.length →
      (chunk_text text limit).head? = some "") := by
  constructor
  · intro c hc
    unfold chunk_text at hc
    exact chunkAux_tail_ne limit (splitlines text) (splitlines_ne_empty text) "" c hc
  · intro fl rest hsp hlen
    unfold chunk_text
    rw [hsp]
    unfold chunkAux
    rw [if_pos (by rw [show ("" : String).length = 0 from rfl]; omega)]
    rfl

/-- Witness for C10 at a concrete input. -/
theorem chunk_text_empty_only_first_witness :
    ("aaaaaaa" : String) ≠ "" ∧ (chunk_text "aaaaaaa" 55).head? = some "" :=
  ⟨(chunk_text_empty_only_first "aaaaaaa" 55).1 "aaaaaaa" (by decide),
   (chunk_text_empty_only_first "aaaaaaa" 55).2 "aaaaaaa" [] (by decide) (by decide)⟩

/-! ### `MENTION_RE` and `extract_mentions_from_text` (bot.py lines 34, 72-73) -/

/-- The regex's explicit capture-group class [A-Za-z0-9_] (exact). -/
def isTokenChar (c : Char) : Bool := c.isAlphanum || c = '_'

/-- Python's Unicode-aware `\w` (used by the `(?<!\w)` lookbehind),
modelled exactly over the ASCII and Cyrillic repertoire: [A-Za-z0-9_] plus
every Cyrillic code point U+0400-U+04FF except the non-alphanumeric
U+0482-U+0489 (a symbol and combining marks). -/
def isWordChar (c : Char) : Bool :=
  isTokenChar c ||
    (0x400 ≤ c.toNat && c.toNat < 0x500 && !(0x482 ≤ c.toNat && c.toNat ≤ 0x489))

/-- The character repertoire on which this embedding of the regex is exact:
ASCII plus the Cyrillic block. -/
def modelledChar (c : Char) : Bool :=
  c.toNat < 128 || (0x400 ≤ c.toNat && c.toNat < 0x500)

lemma isWordChar_of_token {c : Char} (h : isTokenChar c = true) :
    isWordChar c = true := by
  simp [isWordChar, h]

/-- `re.finditer` semantics for `MENTION_RE = (?<!\w)@([A-Za-z0-9_]{5,32})`:
a left-to-right scan over the characters.  `prevW` records whether the
previous character is a `\w` word character (the `(?<!\w)` lookbehind);
at an eligible `@` the greedy group takes up to 32 characters of the
explicit class [A-Za-z0-9_]; if at least 5 were taken the captured group is
emitted and, as `finditer` resumes at the end of the match, the next `skip`
characters (the just-captured group) are passed over; otherwise the scan
advances one character. -/
def mentionScan : Nat → Bool → List Char → List (List Char)
  | _, _, [] => []
  | skip + 1, _, c :: rest => mentionScan skip (isWordChar c) rest
  | 0, prevW, c :: rest =>
    if c = '@' ∧ prevW = false then
      if 5 ≤ ((rest.takeWhile isTokenChar).take 32).length then
        (rest.takeWhile isTokenChar).take 32 ::
          mentionScan ((rest.takeWhile isTokenChar).take 32).length true rest
      else mentionScan 0 false rest
    else mentionScan 0 (isWordChar c) rest

/-- `extract_mentions_from_text(text)` from bot.py lines 72-73: the set of
lowercased captured groups (`text or ""` treats an absent text as empty). -/
def extract_mentions_from_text (text : Option String) : Finset String :=
  ((mentionScan 0 false (text.getD "").data).map
    (fun t => String.mk (t.map Char.toLower))).toFinset

/-- The token the regex would capture at position `i`: the greedy group (up
to 32 word characters) starting right after position `i`. -/
def mentionTok (cs : List Char) (i : Nat) : List Char :=
  ((cs.drop (i + 1)).takeWhile isTokenChar).take 32

/-- The `(?<!\w)` lookbehind at position `i`: start of text, or a preceding
non-word character. -/
def prevOk (prevW : Bool) (cs : List Char) : Nat → Prop
  | 0 => prevW = false
  | j + 1 => ∃ c, cs[j]? = some c ∧ isWordChar c = false

/-- The regex matches at position `i`: an `@` there, an admissible
lookbehind, and a greedy group of at least 5 characters. -/
def mentionOk (prevW : Bool) (cs : List Char) (i : Nat) : Prop :=
  cs[i]? = some '@' ∧ prevOk prevW cs i ∧ 5 ≤ (mentionTok cs i).length

lemma mentionOk_cons_succ (pw : Bool) (c : Char) (rest : List Char) (j : Nat) :
    mentionOk pw (c :: rest) (j + 1) ↔ mentionOk (isWordChar c) rest j := by
  unfold mentionOk mentionTok
  cases j with
  | zero => simp [prevOk]
  | succ k => simp [prevOk]

lemma mentionOk_zero (pw : Bool) (c : Char) (rest : List Char) :
    mentionOk pw (c :: rest) 0 ↔
      (c = '@' ∧ pw = false ∧ 5 ≤ ((rest.takeWhile isTokenChar).take 32).length) := by
  unfold mentionOk mentionTok prevOk
  simp [eq_comm]

lemma mentionOk_succ_indep (pw1 pw2 : Bool) (l : List Char) (j : Nat) :
    mentionOk pw1 l (j + 1) ↔ mentionOk pw2 l (j + 1) := Iff.rfl

lemma exists_nat_split (P : Nat → Prop) : (∃ i, P i) ↔ (P 0 ∨ ∃ j, P (j + 1)) := by
  constructor
  · rintro ⟨i, hi⟩
    cases i with
    | zero => exact Or.inl hi
    | succ j => exact Or.inr ⟨j, hi⟩
  · rintro (h | ⟨j, hj⟩)
    · exact ⟨0, h⟩
    · exact ⟨j + 1, hj⟩

lemma prefix_getElem_eq {α : Type} {u l : List α} (hu : u <+: l) {j : Nat}
    (hj : j < u.length) : l[j]? = u[j]? := by
  obtain ⟨tail, rfl⟩ := hu
  rw [List.getElem?_append, if_pos hj]

lemma mentionTok_cons_zero (c : Char) (rest : List Char) :
    mentionTok (c :: rest) 0 = (rest.takeWhile isTokenChar).take 32 := by
  unfold mentionTok
  simp

lemma mentionTok_cons_succ (c : Char) (rest : List Char) (j : Nat) :
    mentionTok (c :: rest) (j + 1) = mentionTok rest j := by
  unfold mentionTok
  simp

lemma mem_takeWhile_word : ∀ (l : List Char) (x : Char),
    x ∈ l.takeWhile isTokenChar → isTokenChar x = true := by
  intro l
  induction l with
  | nil => intro x hx; simp [List.takeWhile] at hx
  | cons c t ih =>
    intro x hx
    rw [List.takeWhile_cons] at hx
    by_cases h : isTokenChar c
    · rw [if_pos h] at hx
      rcases List.mem_cons.mp hx with h1 | h2
      · rw [h1]; exact h
      · exact ih x h2
    · rw [if_neg h] at hx
      simp at hx

lemma mentionOk_not_at_word {l : List Char} {d : Char} (hd : l[0]? = some d)
    (hw : isWordChar d = true) (pw : Bool) : ¬ mentionOk pw l 0 := by
  rintro ⟨h1, _, _⟩
  rw [hd] at h1
  injection h1 with h1
  rw [h1] at hw
  exact absurd hw (by decide)

lemma mentionOk_prev_irrel {l : List Char} {d : Char} (hd : l[0]? = some d)
    (hw : isWordChar d = true) (pw1 pw2 : Bool) (Q : Nat → Prop) :
    (∃ i, mentionOk pw1 l i ∧ Q i) ↔ (∃ i, mentionOk pw2 l i ∧ Q i) := by
  constructor
  · rintro ⟨i, hok, hq⟩
    cases i with
    | zero => exact absurd hok (mentionOk_not_at_word hd hw pw1)
    | succ j => exact ⟨j + 1, (mentionOk_succ_indep pw1 pw2 l j).mp hok, hq⟩
  · rintro ⟨i, hok, hq⟩
    cases i with
    | zero => exact absurd hok (mentionOk_not_at_word hd hw pw2)
    | succ j => exact ⟨j + 1, (mentionOk_succ_indep pw2 pw1 l j).mp hok, hq⟩

/-- The scanner emits exactly the regex's matches: `t` is an output of
`mentionScan` iff the regex matches at some position `i` with greedy group
`t` (positions inside a `skip` region are word characters, hence never
match starts). -/
lemma mentionScan_iff (t : List Char) : ∀ (skip : Nat) (prevW : Bool) (cs : List Char),
    (∀ j, j < skip → ∃ c, cs[j]? = some c ∧ isWordChar c = true) →
    (t ∈ mentionScan skip prevW cs ↔
      ∃ i, mentionOk prevW cs i ∧ t = mentionTok cs i) := by
  intro skip prevW cs
  induction skip, prevW, cs using mentionScan.induct with
  | case1 skip pw =>
    intro _
    simp [mentionScan, mentionOk]
  | case2 skip pw c rest ih =>
    intro hskip
    have hc : isWordChar c = true := by
      obtain ⟨d, hd, hw⟩ := hskip 0 (Nat.succ_pos _)
      simp at hd
      rw [hd]; exact hw
    have hrest : ∀ j, j < skip → ∃ d, rest[j]? = some d ∧ isWordChar d = true := by
      intro j hj
      have := hskip (j + 1) (by omega)
      simpa using this
    rw [show mentionScan (skip + 1) pw (c :: rest) = mentionScan skip (isWordChar c) rest
      from rfl]
    rw [ih hrest]
    constructor
    · rintro ⟨i, hok, ht⟩
      exact ⟨i + 1, (mentionOk_cons_succ pw c rest i).mpr hok,
        by rw [mentionTok_cons_succ]; exact ht⟩
    · rintro ⟨i, hok, ht⟩
      cases i with
      | zero =>
        exact absurd hok (mentionOk_not_at_word (by simp) hc pw)
      | succ j =>
        exact ⟨j, (mentionOk_cons_succ pw c rest j).mp hok,
          by rw [← mentionTok_cons_succ c rest j]; exact ht⟩
  | case3 pw c rest h hlen ih =>
    intro _
    obtain ⟨hc, hpw⟩ := h
    subst hc; subst hpw
    have hpref : (rest.takeWhile isTokenChar).take 32 <+: rest :=
      (List.take_prefix 32 (rest.takeWhile isTokenChar)).trans
        (List.takeWhile_prefix isTokenChar)
    have hword : ∀ j, j < ((rest.takeWhile isTokenChar).take 32).length →
        ∃ d, rest[j]? = some d ∧ isWordChar d = true := by
      intro j hj
      have h1 : rest[j]? = ((rest.takeWhile isTokenChar).take 32)[j]? :=
        prefix_getElem_eq hpref hj
      have h2 : ((rest.takeWhile isTokenChar).take 32)[j]? =
          some (((rest.takeWhile isTokenChar).take 32)[j]) := List.getElem?_eq_getElem hj
      refine ⟨((rest.takeWhile isTokenChar).take 32)[j], by rw [h1, h2], ?_⟩
      exact isWordChar_of_token (mem_takeWhile_word rest _
        (List.mem_of_mem_take (List.getElem_mem hj)))
    have hstep : mentionScan 0 false ('@' :: rest) =
        (rest.takeWhile isTokenChar).take 32 ::
          mentionScan ((rest.takeWhile isTokenChar).take 32).length true rest := by
      rw [mentionScan]
      rw [if_pos ⟨rfl, rfl⟩, if_pos hlen]
    rw [hstep, List.mem_cons, ih hword]
    have hd0 : ∃ d, rest[0]? = some d ∧ isWordChar d = true := by
      apply hword 0
      omega
    obtain ⟨d, hd, hw⟩ := hd0
    rw [mentionOk_prev_irrel hd hw true false (fun i => t = mentionTok rest i)]
    rw [exists_nat_split
      (fun i => mentionOk false ('@' :: rest) i ∧ t = mentionTok ('@' :: rest) i)]
    have hsucc : ∀ j, (mentionOk false ('@' :: rest) (j + 1) ∧
        t = mentionTok ('@' :: rest) (j + 1)) ↔
        (mentionOk (isWordChar '@') rest j ∧ t = mentionTok rest j) :=
      fun j => and_congr (mentionOk_cons_succ false '@' rest j)
        (by rw [mentionTok_cons_succ])
    have hzero : (mentionOk false ('@' :: rest) 0 ∧ t = mentionTok ('@' :: rest) 0) ↔
        t = (rest.takeWhile isTokenChar).take 32 := by
      rw [mentionOk_zero, mentionTok_cons_zero]
      constructor
      · rintro ⟨_, ht⟩; exact ht
      · intro ht; exact ⟨⟨rfl, rfl, hlen⟩, ht⟩
    rw [exists_congr hsucc, hzero]
    rw [show isWordChar '@' = false by decide]
  | case4 pw c rest h hlen ih =>
    intro _
    obtain ⟨hc, hpw⟩ := h
    subst hc; subst hpw
    have hstep : mentionScan 0 false ('@' :: rest) = mentionScan 0 false rest := by
      rw [mentionScan]
      rw [if_pos ⟨rfl, rfl⟩, if_neg hlen]
    rw [hstep, ih (fun j hj => absurd hj (Nat.not_lt_zero j))]
    rw [exists_nat_split
      (fun i => mentionOk false ('@' :: rest) i ∧ t = mentionTok ('@' :: rest) i)]
    have hsucc : ∀ j, (mentionOk false ('@' :: rest) (j + 1) ∧
        t = mentionTok ('@' :: rest) (j + 1)) ↔
        (mentionOk (isWordChar '@') rest j ∧ t = mentionTok rest j) :=
      fun j => and_congr (mentionOk_cons_succ false '@' rest j)
        (by rw [mentionTok_cons_succ])
    have hzero : ¬ (mentionOk false ('@' :: rest) 0 ∧ t = mentionTok ('@' :: rest) 0) := by
      rintro ⟨hok, _⟩
      exact hlen ((mentionOk_zero false '@' rest).mp hok).2.2
    rw [exists_congr hsucc]
    rw [show isWordChar '@' = false by decide]
    constructor
    · intro hx; exact Or.inr hx
    · rintro (hx | hx)
      · exact absurd hx hzero
      · exact hx
  | case5 pw c rest h ih =>
    intro _
    have hstep : mentionScan 0 pw (c :: rest) = mentionScan 0 (isWordChar c) rest := by
      rw [mentionScan]
      rw [if_neg h]
    rw [hstep, ih (fun j hj => absurd hj (Nat.not_lt_zero j))]
    rw [exists_nat_split
      (fun i => mentionOk pw (c :: rest) i ∧ t = mentionTok (c :: rest) i)]
    have hsucc : ∀ j, (mentionOk pw (c :: rest) (j + 1) ∧
        t = mentionTok (c :: rest) (j + 1)) ↔
        (mentionOk (isWordChar c) rest j ∧ t = mentionTok rest j) :=
      fun j => and_congr (mentionOk_cons_succ pw c rest j)
        (by rw [mentionTok_cons_succ])
    have hzero : ¬ (mentionOk pw (c :: rest) 0 ∧ t = mentionTok (c :: rest) 0) := by
      rintro ⟨hok, _⟩
      obtain ⟨h1, h2, _⟩ := (mentionOk_zero pw c rest).mp hok
      exact h ⟨h1, h2⟩
    rw [exists_congr hsucc]
    constructor
    · intro hx; exact Or.inr hx
    · rintro (hx | hx)
      · exact absurd hx hzero
      · exact hx

/-- C3 (amended): the mention scanner is a pure total function on optional
text (absent input = empty text) returning a set; for text over the ASCII
and Cyrillic repertoire — on which this embedding of the Unicode-aware
`(?<!\w)` lookbehind is exact — a string `s` is in the output iff the
regex matches at some position: an `@` with no word character (`\w`)
immediately before it whose greedy group (the run of [A-Za-z0-9_]
characters right after the `@`, capped at 32 characters) has length at
least 5, and `s` is the lowercasing of that maximal group. -/
theorem extract_mentions_spec (text : Option String) (s : String)
    (hdom : ∀ c ∈ (text.getD "").data, modelledChar c = true) :
    s ∈ extract_mentions_from_text text ↔
    ∃ i, mentionOk false (text.getD "").data i ∧
      s = String.mk ((mentionTok (text.getD "").data i).map Char.toLower) := by
  unfold extract_mentions_from_text
  rw [List.mem_toFinset, List.mem_map]
  constructor
  · rintro ⟨t, ht, rfl⟩
    obtain ⟨i, hok, rfl⟩ := (mentionScan_iff t 0 false (text.getD "").data
      (fun j hj => absurd hj (Nat.not_lt_zero j))).mp ht
    exact ⟨i, hok, rfl⟩
  · rintro ⟨i, hok, hs⟩
    exact ⟨mentionTok (text.getD "").data i,
      (mentionScan_iff _ 0 false (text.getD "").data
        (fun j hj => absurd hj (Nat.not_lt_zero j))).mpr ⟨i, hok, rfl⟩, hs.symm⟩

/-- Witness for the amended C3 at a concrete ASCII text. -/
theorem extract_mentions_spec_witness :
    ("alice_99" ∈ extract_mentions_from_text (some "hi @Alice_99")) ↔
      (∃ i, mentionOk false ("hi @Alice_99" : String).data i ∧
        "alice_99" = String.mk ((mentionTok ("hi @Alice_99" : String).data i).map
          Char.toLower)) :=
  extract_mentions_spec (some "hi @Alice_99") "alice_99" (by decide)

/-- The claim's literal description of the returned token set (maximality of
the token is not required by this wording): the text contains an `@` not
preceded by a word character, followed by the original-case form of `t`,
where `t` is 5-32 characters from [A-Za-z0-9_], and `s` is `t` lowercased. -/
def mentionSpecLiteral (cs : List Char) (s : String) : Prop :=
  ∃ i t, cs[i]? = some '@' ∧ prevOk false cs i ∧
    5 ≤ t.length ∧ t.length ≤ 32 ∧ (∀ c ∈ t, isTokenChar c = true) ∧
    (cs.drop (i + 1)).take t.length = t ∧
    s = String.mk (t.map Char.toLower)

/-- C3 counterexample: for the text "@abcdef" the 5-character prefix
"abcde" satisfies the claim's literal token description, yet the scanner
(greedy regex) returns only the maximal token "abcdef", so the output is
not the set described by the claim. -/
theorem extract_mentions_counterexample :
    mentionSpecLiteral ("@abcdef".data) "abcde" ∧
    "abcde" ∉ extract_mentions_from_text (some "@abcdef") := by
  constructor
  · exact ⟨0, ['a', 'b', 'c', 'd', 'e'], by decide, rfl, by decide, by decide,
      by decide, by decide, by decide⟩
  · decide

/-! ### Structured (JSON) export extraction (bot.py lines 76-127) -/

/-- Values of a parsed JSON export document (Python objects produced by
`json.loads`, plus `null` standing for Python `None`, which is also what
`dict.get` returns for a missing key). -/
inductive JVal where
  | null : JVal
  | str (s : String) : JVal
  | num (n : Int) : JVal
  | bool (b : Bool) : JVal
  | arr (xs : List JVal) : JVal
  | obj (kvs : List (String × JVal)) : JVal

def JVal.isArr : JVal → Bool
  | .arr _ => true
  | _ => false

/-- Python `d.get(k)`: first binding of `k`, `None` when absent. -/
def pyGet (kvs : List (String × JVal)) (k : String) : JVal :=
  match kvs.find? (fun p => p.1 == k) with
  | some p => p.2
  | none => JVal.null

/-- Python truthiness of an export-document value. -/
def pyTruthy : JVal → Bool
  | .null => false
  | .str s => s != ""
  | .num n => n != 0
  | .bool b => b
  | .arr xs => !xs.isEmpty
  | .obj kvs => !kvs.isEmpty

/-- Python `a or b` (first truthy operand). -/
def pyOr (a b : JVal) : JVal := if pyTruthy a then a else b

/-- Python `str(x)` on export-document values.  Scalar renderings are
modelled exactly; containers get a fixed placeholder — no claim inspects the
rendering of a container-valued field. -/
def pyStr : JVal → String
  | .null => "None"
  | .str s => s
  | .num n => toString n
  | .bool b => if b then "True" else "False"
  | .arr _ => "<list>"
  | .obj _ => "<dict>"

/-- `_safe_str(x)` from bot.py lines 37-40: "" for `None`, else
`str(x).strip()`. -/
def safe_str : JVal → String
  | .null => ""
  | v => pyStrip (pyStr v)

/-- `_split_name(full_name)` from bot.py lines 43-50: first
whitespace-separated token, and the remaining tokens joined by spaces. -/
def split_name (full_name : String) : String × String :=
  let fn := pyStrip full_name
  if fn = "" then ("", "")
  else
    match pyWords fn with
    | [] => ("", "")
    | [p] => (p, "")
    | p :: rest => (p, pyJoin " " rest)

/-- One participant row as stored in the `participants` dict
(bot.py lines 119-125). -/
structure ParticipantRecord where
  export_date : String
  username : String
  first_name : String
  last_name : String
  bio : String
deriving DecidableEq

/-- Python dict assignment `d[k] = v`: replace in place if the key exists,
else append. -/
def dictUpsert (m : List (String × ParticipantRecord)) (k : String)
    (v : ParticipantRecord) : List (String × ParticipantRecord) :=
  if m.any (fun p => p.1 == k) then
    m.map (fun p => if p.1 == k then (k, v) else p)
  else m ++ [(k, v)]

/-- Python dict lookup `d.get(k)` on the participants map. -/
def dictLookup (m : List (String × ParticipantRecord)) (k : String) :
    Option ParticipantRecord :=
  (m.find? (fun p => p.1 == k)).map (fun p => p.2)

/-- The mention harvesting of one message's `text` field (bot.py lines
89-99): a plain string is scanned directly; a segment list is concatenated
(string segments verbatim, object segments via their `text` sub-field)
before scanning; any other shape contributes nothing. -/
def scan_text_field (v : JVal) : Finset String :=
  match v with
  | .str s => extract_mentions_from_text (some s)
  | .arr items =>
    extract_mentions_from_text (some (items.foldl (fun acc item =>
      match item with
      | .str s => acc ++ s
      | .obj kvs => acc ++ safe_str (pyGet kvs "text")
      | _ => acc) ""))
  | _ => ∅

/-- The author display name resolved by bot.py line 101:
`_safe_str(m.get("from") or m.get("actor") or m.get("sender") or "")`. -/
def resolved_from_name (kvs : List (String × JVal)) : String :=
  safe_str (pyOr (pyGet kvs "from")
    (pyOr (pyGet kvs "actor") (pyOr (pyGet kvs "sender") (JVal.str ""))))

/-- The author identifier resolved by bot.py line 102. -/
def resolved_from_id (kvs : List (String × JVal)) : String :=
  safe_str (pyOr (pyGet kvs "from_id")
    (pyOr (pyGet kvs "actor_id") (pyOr (pyGet kvs "sender_id") (JVal.str ""))))

/-- The username resolved by bot.py line 103. -/
def resolved_username (kvs : List (String × JVal)) : String :=
  safe_str (pyOr (pyGet kvs "username") (pyOr (pyGet kvs "from_username") (JVal.str "")))

/-- The body of the `for m in messages` loop of bot.py lines 85-125, acting
on the accumulated (participants, mentions) state. -/
def processMessage (export_date : String)
    (st : List (String × ParticipantRecord) × Finset String) (m : JVal) :
    List (String × ParticipantRecord) × Finset String :=
  match m with
  | .obj kvs =>
    let mentions := st.2 ∪ scan_text_field (pyGet kvs "text")
    let from_name := resolved_from_name kvs
    let from_id := resolved_from_id kvs
    let username := resolved_username kvs
    let first_name0 := safe_str (pyGet kvs "first_name")
    let last_name0 := safe_str (pyGet kvs "last_name")
    let names :=
      if first_name0 = "" ∧ last_name0 = "" ∧ from_name ≠ "" then
        let fl := split_name from_name
        (if first_name0 ≠ "" then first_name0 else fl.1,
         if last_name0 ≠ "" then last_name0 else fl.2)
      else (first_name0, last_name0)
    let first_name := names.1
    let last_name := names.2
    if from_id = "" ∧ username = "" ∧ first_name = "" ∧ last_name = "" ∧
        from_name = "" then
      (st.1, mentions)
    else if is_deleted_account from_name from_id then
      (st.1, mentions)
    else
      let key := make_user_key from_id username first_name last_name
      (dictUpsert st.1 key ⟨export_date, username, first_name, last_name, "N/A"⟩,
        mentions)
  | _ => st

/-- `extract_from_json(data)` from bot.py lines 76-127.  The current UTC
timestamp used when the document lacks an export date is passed explicitly
as `now`. -/
def extract_from_json (data : List (String × JVal)) (now : String) :
    String × List (String × ParticipantRecord) × Finset String :=
  let export_date :=
    if safe_str (pyGet data "export_date") ≠ "" then safe_str (pyGet data "export_date")
    else now
  match pyGet data "messages" with
  | .arr ms =>
    let st := ms.foldl (processMessage export_date) ([], ∅)
    (export_date, st.1, st.2)
  | _ => (export_date, [], ∅)

/-- C8: a parsed document whose message collection is missing or not a list
yields an empty participants map and an empty mention set, together with a
resolved export date (document value if non-empty, else the current
timestamp) — structural absence is a valid empty result, not an error. -/
theorem extract_from_json_no_messages (data : List (String × JVal)) (now : String)
    (h : (pyGet data "messages").isArr = false) :
    (extract_from_json data now).2.1 = [] ∧
    (extract_from_json data now).2.2 = ∅ ∧
    (extract_from_json data now).1 =
      (if safe_str (pyGet data "export_date") ≠ "" then
        safe_str (pyGet data "export_date") else now) := by
  simp only [extract_from_json]
  rcases hv : pyGet data "messages" with _ | sv | nv | bv | xs | kvs
  · simp
  · simp
  · simp
  · simp
  · rw [hv] at h
    exact absurd h (by simp [JVal.isArr])
  · simp

/-- Witness for C8 at a concrete document with no message list. -/
theorem extract_from_json_no_messages_witness :
    (extract_from_json [("export_date", JVal.str "2024-05-05")] "NOW").2.1 = [] ∧
    (extract_from_json [("export_date", JVal.str "2024-05-05")] "NOW").2.2 = ∅ ∧
    (extract_from_json [("export_date", JVal.str "2024-05-05")] "NOW").1 =
      (if safe_str (pyGet [("export_date", JVal.str "2024-05-05")] "export_date") ≠ "" then
        safe_str (pyGet [("export_date", JVal.str "2024-05-05")] "export_date")
      else "NOW") :=
  extract_from_json_no_messages [("export_date", JVal.str "2024-05-05")] "NOW" (by decide)

/-- C2 counterexample: in this message the resolved identifier
("deleted account") matches the deleted-account heuristic while the display
name ("Alice") does not, and a ParticipantRecord IS created for it — the
code never applies the heuristic to the identifier. -/
theorem extract_from_json_deleted_id_counterexample :
    resolved_from_id [("from", JVal.str "Alice"), ("from_id", JVal.str "deleted account")] =
      "deleted account" ∧
    is_deleted_account "deleted account" "" = true ∧
    (extract_from_json [("messages", JVal.arr [JVal.obj [("from", JVal.str "Alice"),
      ("from_id", JVal.str "deleted account")]])] "NOW").2.1 =
    [("id:deleted account", ⟨"NOW", "", "Alice", "", "N/A"⟩)] :=
  ⟨by decide, by decide, by decide⟩

/-- C2 (amended): the skip is decided by the resolved display name alone:
whenever the name matches the deleted-account heuristic, processing the
message leaves the participants map unchanged (no record is created or
updated; mentions are still harvested).  An identifier matching the
heuristic does not cause a skip. -/
theorem processMessage_deleted_name (export_date : String)
    (st : List (String × ParticipantRecord) × Finset String)
    (kvs : List (String × JVal))
    (h : is_deleted_account (resolved_from_name kvs) (resolved_from_id kvs) = true) :
    (processMessage export_date st (JVal.obj kvs)).1 = st.1 := by
  simp only [processMessage]
  rw [if_pos h, ite_self]

/-- Witness for the amended C2 at concrete messages: the English and the
capitalized Russian canonical deleted-account display names. -/
theorem processMessage_deleted_name_witness :
    (processMessage "D" ([], ∅) (JVal.obj [("from", JVal.str "Deleted Account")])).1 =
      ([] : List (String × ParticipantRecord)) ∧
    (processMessage "D" ([], ∅) (JVal.obj [("from", JVal.str "Удалённый аккаунт")])).1 =
      ([] : List (String × ParticipantRecord)) :=
  ⟨processMessage_deleted_name "D" ([], ∅) [("from", JVal.str "Deleted Account")]
    (by decide),
   processMessage_deleted_name "D" ([], ∅) [("from", JVal.str "Удалённый аккаунт")]
    (by decide)⟩

/-! ### Aggregation across files (bot.py lines 259-281) -/

/-- The (participants, mentions) result of one file's extraction, as folded
by `done`. -/
structure ExtractionResult where
  participants : List (String × ParticipantRecord)
  mentions : Finset String

/-- Python `base.update(incoming)` on dicts: each incoming binding is
upserted in order. -/
def dictUpdate (base incoming : List (String × ParticipantRecord)) :
    List (String × ParticipantRecord) :=
  incoming.foldl (fun acc kv => dictUpsert acc kv.1 kv.2) base

/-- The aggregation loop of `done` (bot.py lines 259-276):
`all_participants.update(participants)` and `all_mentions |= mentions`,
in upload order. -/
def merge_results (rs : List ExtractionResult) : ExtractionResult :=
  rs.foldl (fun acc r =>
    ⟨dictUpdate acc.participants r.participants, acc.mentions ∪ r.mentions⟩) ⟨[], ∅⟩

lemma dictLookup_cons (k0 : String) (v0 : ParticipantRecord)
    (t : List (String × ParticipantRecord)) (k : String) :
    dictLookup ((k0, v0) :: t) k = if k0 = k then some v0 else dictLookup t k := by
  by_cases h : k0 = k
  · simp [dictLookup, List.find?, h]
  · simp only [dictLookup, List.find?]
    rw [show ((k0, v0).1 == k) = false by simpa using h]
    simp [h, dictLookup]

lemma dictLookup_not_mem {t : List (String × ParticipantRecord)} {k : String}
    (h : k ∉ t.map Prod.fst) : dictLookup t k = none := by
  induction t with
  | nil => rfl
  | cons p rest ih =>
    rcases p with ⟨k0, v0⟩
    rw [List.map_cons] at h
    have h1 : k ≠ k0 := fun hh => h (by rw [hh]; exact List.mem_cons_self _ _)
    have h2 : k ∉ rest.map Prod.fst := fun hh => h (List.mem_cons_of_mem _ hh)
    rw [dictLookup_cons, if_neg (fun hh => h1 hh.symm)]
    exact ih h2

lemma dictLookup_map_self (k : String) (v : ParticipantRecord) :
    ∀ m : List (String × ParticipantRecord), m.any (fun p => p.1 == k) = true →
    dictLookup (m.map (fun p => if p.1 == k then (k, v) else p)) k = some v := by
  intro m
  induction m with
  | nil => intro h; simp at h
  | cons p t ih =>
    intro h
    rcases p with ⟨k0, v0⟩
    by_cases h0 : k0 = k
    · subst h0
      rw [List.map_cons, if_pos (show ((k0, v0).1 == k0) = true by simp),
        dictLookup_cons, if_pos rfl]
    · rw [List.map_cons, if_neg (show ¬ ((k0, v0).1 == k) = true by simp [h0]),
        dictLookup_cons, if_neg h0]
      apply ih
      have hh := h
      rw [List.any_cons, Bool.or_eq_true] at hh
      rcases hh with hh | hh
      · exact absurd (by simpa using hh) h0
      · exact hh

lemma dictLookup_map_ne (k k2 : String) (v : ParticipantRecord) (h : k2 ≠ k) :
    ∀ m : List (String × ParticipantRecord),
    dictLookup (m.map (fun p => if p.1 == k then (k, v) else p)) k2 = dictLookup m k2 := by
  intro m
  induction m with
  | nil => rfl
  | cons p t ih =>
    rcases p with ⟨k0, v0⟩
    by_cases h0 : k0 = k
    · subst h0
      rw [List.map_cons, if_pos (show ((k0, v0).1 == k0) = true by simp),
        dictLookup_cons, dictLookup_cons,
        if_neg (fun hh => h hh.symm), if_neg (fun hh => h hh.symm)]
      exact ih
    · rw [List.map_cons, if_neg (show ¬ ((k0, v0).1 == k) = true by simp [h0]),
        dictLookup_cons, dictLookup_cons]
      by_cases hk : k0 = k2
      · simp [hk]
      · rw [if_neg hk, if_neg hk]
        exact ih

lemma dictLookup_append_single_self (k : String) (v : ParticipantRecord) :
    ∀ m : List (String × ParticipantRecord), m.any (fun p => p.1 == k) = false →
    dictLookup (m ++ [(k, v)]) k = some v := by
  intro m
  induction m with
  | nil =>
    intro _
    rw [List.nil_append, dictLookup_cons, if_pos rfl]
  | cons p t ih =>
    intro h
    rcases p with ⟨k0, v0⟩
    rw [List.any_cons, Bool.or_eq_false_iff] at h
    rw [List.cons_append, dictLookup_cons, if_neg (by simpa using h.1)]
    exact ih h.2

lemma dictLookup_append_single_ne (k k2 : String) (v : ParticipantRecord)
    (h : k2 ≠ k) : ∀ m : List (String × ParticipantRecord),
    dictLookup (m ++ [(k, v)]) k2 = dictLookup m k2 := by
  intro m
  induction m with
  | nil =>
    rw [List.nil_append, dictLookup_cons, if_neg (fun hh => h hh.symm)]
  | cons p t ih =>
    rcases p with ⟨k0, v0⟩
    rw [List.cons_append, dictLookup_cons, dictLookup_cons]
    by_cases hk : k0 = k2
    · simp [hk]
    · rw [if_neg hk, if_neg hk]
      exact ih

lemma dictLookup_upsert_self (m : List (String × ParticipantRecord)) (k : String)
    (v : ParticipantRecord) : dictLookup (dictUpsert m k v) k = some v := by
  unfold dictUpsert
  by_cases h : m.any (fun p => p.1 == k)
  · rw [if_pos h]
    exact dictLookup_map_self k v m h
  · rw [if_neg h]
    exact dictLookup_append_single_self k v m (Bool.eq_false_iff.mpr h)

lemma dictLookup_upsert_ne (m : List (String × ParticipantRecord)) (k k2 : String)
    (v : ParticipantRecord) (h : k2 ≠ k) :
    dictLookup (dictUpsert m k v) k2 = dictLookup m k2 := by
  unfold dictUpsert
  by_cases hany : m.any (fun p => p.1 == k)
  · rw [if_pos hany]
    exact dictLookup_map_ne k k2 v h m
  · rw [if_neg hany]
    exact dictLookup_append_single_ne k k2 v h m

lemma dictLookup_dictUpdate_none (inc : List (String × ParticipantRecord))
    (k : String) : ∀ base, dictLookup inc k = none →
    dictLookup (dictUpdate base inc) k = dictLookup base k := by
  induction inc with
  | nil => intro base _; rfl
  | cons p t ih =>
    intro base hnone
    rcases p with ⟨k0, v0⟩
    rw [dictLookup_cons] at hnone
    by_cases h0 : k0 = k
    · rw [if_pos h0] at hnone; cases hnone
    · rw [if_neg h0] at hnone
      show dictLookup (dictUpdate (dictUpsert base k0 v0) t) k = dictLookup base k
      rw [ih (dictUpsert base k0 v0) hnone,
        dictLookup_upsert_ne base k0 k v0 (fun hh => h0 hh.symm)]

lemma dictLookup_dictUpdate_some (inc : List (String × ParticipantRecord))
    (k : String) (v : ParticipantRecord) :
    ∀ base, (inc.map Prod.fst).Nodup → dictLookup inc k = some v →
    dictLookup (dictUpdate base inc) k = some v := by
  induction inc with
  | nil => intro base _ hsome; cases hsome
  | cons p t ih =>
    intro base hnodup hsome
    rcases p with ⟨k0, v0⟩
    rw [dictLookup_cons] at hsome
    simp at hnodup
    by_cases h0 : k0 = k
    · rw [if_pos h0] at hsome
      injection hsome with hv
      subst h0
      have htnone : dictLookup t k0 = none :=
        dictLookup_not_mem (by simpa using hnodup.1)
      show dictLookup (dictUpdate (dictUpsert base k0 v0) t) k0 = some v
      rw [dictLookup_dictUpdate_none t k0 (dictUpsert base k0 v0) htnone,
        dictLookup_upsert_self, hv]
    · rw [if_neg h0] at hsome
      exact ih (dictUpsert base k0 v0) hnodup.2 hsome

/-- C4: merging is last-write-wins per key in processing order, and mention
sets are combined by set union: when two results bind the same key to
records that differ in last name, `merge_results [a, b]` keeps b's record
and `merge_results [b, a]` keeps a's. -/
theorem merge_results_spec (a b : ExtractionResult) (k : String)
    (ra rb : ParticipantRecord)
    (hka : (a.participants.map Prod.fst).Nodup)
    (hkb : (b.participants.map Prod.fst).Nodup)
    (ha : dictLookup a.participants k = some ra)
    (hb : dictLookup b.participants k = some rb)
    (hne : ra.last_name ≠ rb.last_name) :
    dictLookup (merge_results [a, b]).participants k = some rb ∧
    dictLookup (merge_results [b, a]).participants k = some ra ∧
    (merge_results [a, b]).mentions = a.mentions ∪ b.mentions ∧
    (merge_results [b, a]).mentions = b.mentions ∪ a.mentions := by
  refine ⟨?_, ?_, ?_, ?_⟩
  · show dictLookup (dictUpdate (dictUpdate [] a.participants) b.participants) k = some rb
    exact dictLookup_dictUpdate_some b.participants k rb _ hkb hb
  · show dictLookup (dictUpdate (dictUpdate [] b.participants) a.participants) k = some ra
    exact dictLookup_dictUpdate_some a.participants k ra _ hka ha
  · show (∅ ∪ a.mentions) ∪ b.mentions = a.mentions ∪ b.mentions
    rw [Finset.empty_union]
  · show (∅ ∪ b.mentions) ∪ a.mentions = b.mentions ∪ a.mentions
    rw [Finset.empty_union]

/-- Witness for C4 at two concrete one-entry results. -/
theorem merge_results_spec_witness :
    dictLookup (merge_results [⟨[("k", ⟨"d", "u", "f", "A", "N/A"⟩)], {"x"}⟩,
      ⟨[("k", ⟨"d", "u", "f", "B", "N/A"⟩)], {"y"}⟩]).participants "k" =
      some ⟨"d", "u", "f", "B", "N/A"⟩ ∧
    dictLookup (merge_results [⟨[("k", ⟨"d", "u", "f", "B", "N/A"⟩)], {"y"}⟩,
      ⟨[("k", ⟨"d", "u", "f", "A", "N/A"⟩)], {"x"}⟩]).participants "k" =
      some ⟨"d", "u", "f", "A", "N/A"⟩ := by
  have h := merge_results_spec ⟨[("k", ⟨"d", "u", "f", "A", "N/A"⟩)], {"x"}⟩
    ⟨[("k", ⟨"d", "u", "f", "B", "N/A"⟩)], {"y"}⟩ "k"
    ⟨"d", "u", "f", "A", "N/A"⟩ ⟨"d", "u", "f", "B", "N/A"⟩
    (by decide) (by decide) (by decide) (by decide) (by decide)
  exact ⟨h.1, h.2.1⟩

/-! ### Presentation selection (bot.py lines 161-180 and 298-343) -/

/-- The sort key of bot.py lines 299-303: ascending by (lowercased
username, lowercased first name, lowercased last name). -/
def rowLe (r1 r2 : ParticipantRecord) : Bool :=
  if pyLower r1.username ≠ pyLower r2.username then
    decide (pyLower r1.username < pyLower r2.username)
  else if pyLower r1.first_name ≠ pyLower r2.first_name then
    decide (pyLower r1.first_name < pyLower r2.first_name)
  else decide (pyLower r1.last_name ≤ pyLower r2.last_name)

/-- `build_excel_bytes(rows)` (bot.py lines 161-180) modelled as the cell
matrix written to the worksheet: the fixed header row, then one row per
record in the fixed column order. -/
def build_excel_rows (rows : List ParticipantRecord) : List (List String) :=
  ["export_date", "username", "first_name", "last_name", "bio"] ::
    rows.map (fun r => [r.export_date, r.username, r.first_name, r.last_name, r.bio])

/-- The inline textual rendering of bot.py lines 305-329: numbered
"@username" entries first, then a labelled section of username-less
participants by display name. -/
def inline_list_text (rows : List ParticipantRecord) : String :=
  let with_username := rows.filterMap (fun r =>
    let u := pyStrip r.username
    if u ≠ "" then some ("@" ++ u) else none)
  let no_username := rows.filterMap (fun r =>
    let u := pyStrip r.username
    if u ≠ "" then none
    else
      let nm := pyJoin " "
        (([pyStrip r.first_name, pyStrip r.last_name]).filter (fun p => p != ""))
      some (if nm ≠ "" then nm else "(без имени)"))
  let parts1 := ["Список участников (username):"]
  let parts2 :=
    if with_username ≠ [] then
      with_username.enum.map (fun p => toString (p.1 + 1) ++ ". " ++ p.2)
    else ["— (в экспорте не найдено ни одного username)"]
  let parts3 :=
    if no_username ≠ [] then
      "\nУчастники без username (по имени из экспорта):" ::
        no_username.map (fun n => "- " ++ n)
    else []
  pyJoin "\n" (parts1 ++ parts2 ++ parts3)

/-- The output payload chosen by `done` (bot.py lines 298-343). -/
inductive RenderPlan where
  | inline (chunks : List String) : RenderPlan
  | excel (cells : List (List String)) : RenderPlan

/-- The presentation tail of `done` (bot.py lines 298-343): sort the rows,
then render inline (chunked) when the distinct-participant count is below
`LIST_THRESHOLD`, else as the spreadsheet cell matrix. -/
def done_render (rows : List ParticipantRecord) : RenderPlan :=
  let total := rows.length
  let sorted := rows.mergeSort rowLe
  if total < LIST_THRESHOLD then
    RenderPlan.inline (chunk_text (inline_list_text sorted))
  else
    RenderPlan.excel (build_excel_rows sorted)

/-- C5: the presentation threshold is strict at 50: at most 49 participants
render as the inline chunked text list, 50 or more render as the tabular
export whose first row is the fixed column header (export_date, username,
first_name, last_name, bio) followed by one row per participant. -/
theorem done_render_threshold (rows : List ParticipantRecord) :
    (rows.length ≤ 49 →
      done_render rows = RenderPlan.inline
        (chunk_text (inline_list_text (rows.mergeSort rowLe)))) ∧
    (50 ≤ rows.length →
      done_render rows = RenderPlan.excel
        (["export_date", "username", "first_name", "last_name", "bio"] ::
          (rows.mergeSort rowLe).map (fun r =>
            [r.export_date, r.username, r.first_name, r.last_name, r.bio]))) := by
  constructor
  · intro h
    simp only [done_render]
    rw [if_pos (show rows.length < LIST_THRESHOLD by
      simp only [LIST_THRESHOLD]; omega)]
  · intro h
    simp only [done_render, build_excel_rows]
    rw [if_neg (show ¬ rows.length < LIST_THRESHOLD by
      simp only [LIST_THRESHOLD]; omega)]

/-- Witness for C5 at concrete row counts 49 and 50. -/
theorem done_render_threshold_witness :
    done_render (List.replicate 49 (⟨"d", "u", "f", "l", "N/A"⟩ : ParticipantRecord)) =
      RenderPlan.inline (chunk_text (inline_list_text
        ((List.replicate 49 (⟨"d", "u", "f", "l", "N/A"⟩ : ParticipantRecord)).mergeSort
          rowLe))) ∧
    done_render (List.replicate 50 (⟨"d", "u", "f", "l", "N/A"⟩ : ParticipantRecord)) =
      RenderPlan.excel
        (["export_date", "username", "first_name", "last_name", "bio"] ::
          ((List.replicate 50 (⟨"d", "u", "f", "l", "N/A"⟩ : ParticipantRecord)).mergeSort
            rowLe).map (fun r =>
              [r.export_date, r.username, r.first_name, r.last_name, r.bio])) :=
  ⟨(done_render_threshold _).1 (by simp),
   (done_render_threshold _).2 (by simp)⟩

end Bot
